import Mathlib

/-!
# Formal model of the MD-note semantic retrieval and chat subsystem

This development is a shallow embedding, in Lean 4, of the core of the
MD-note application: the knowledge-graph edge construction (`src/graph.js`),
the embedding index (`src/vector-store.js`), the auto-linking routine and the
tool-calling agent loop of `ChatManager.sendMessage`, and the tool registry
(`src/tabs.js`).

Modelling conventions:
* JavaScript strings are Lean `String`s; where a JS string primitive does not
  reduce well in the kernel (trim, toLowerCase, includes, comparison) we model
  it by an explicit function on the underlying `List Char`, faithful to the
  JS behaviour on the Basic Latin range used by the application's data.
* JS numbers standing for timestamps are `Nat`; similarity scores are `ℚ`
  (the numeric claims about `cosineSimilarity` are settled over `ℝ`).
* Calls to external collaborators (the inference service, `JSON.parse`,
  `JSON.stringify`, the persistence layer) are parameters of the functions
  that call them, so every theorem quantifies over their behaviour.
* Fallible operations are total functions returning the unchanged state, or
  `Except` values where the source can throw.
-/

/-- JS-style comparison of two characters by code point. -/
def charLt (a b : Char) : Bool := a.toNat < b.toNat

/-- Lexicographic comparison of two strings as lists of code points; models
the default JS string comparison used by `Array.prototype.sort()`. -/
def strLeList : List Char → List Char → Bool
  | [], _ => true
  | _ :: _, [] => false
  | a :: as, b :: bs =>
    if charLt a b then true
    else if charLt b a then false
    else strLeList as bs

/-- `a ≤ b` on strings, JS-style. -/
def strLe (a b : String) : Bool := strLeList a.data b.data

/-- `l` starts with `p` (list version of `String.prototype.startsWith`). -/
def startsWithList : List Char → List Char → Bool
  | _, [] => true
  | [], _ :: _ => false
  | h :: hs, p :: ps => h == p && startsWithList hs ps

/-- `pat` occurs as a contiguous substring of `hay`. -/
def containsSub : List Char → List Char → Bool
  | [], pat => startsWithList [] pat
  | h :: t, pat => startsWithList (h :: t) pat || containsSub t pat

/-- Models `s.includes(pat)` from JS. -/
def strIncludes (s pat : String) : Bool := containsSub s.data pat.data

/-- Models `String.prototype.toLowerCase` (ASCII range). -/
def strToLower (s : String) : String := ⟨s.data.map Char.toLower⟩

/-- Length of `s.trim()`: both ends stripped of whitespace.  Models
`String.prototype.trim().length`. -/
def trimmedLen (s : String) : Nat :=
  (((s.data.dropWhile Char.isWhitespace).reverse.dropWhile Char.isWhitespace).reverse).length

/-- Models `s.substring(0, n)` from JS. -/
def strTake (s : String) (n : Nat) : String := ⟨s.data.take n⟩

/-- Models `Array.prototype.join(sep)` from JS. -/
def joinSep (sep : String) : List String → String
  | [] => ""
  | [s] => s
  | s :: rest => s ++ sep ++ joinSep sep rest

/-!
## Data model

The `Note` record (spec §3), restricted to the fields the core subsystem
reads: identifier, title, body, tags, explicit cross-reference titles
(`wikiLinks`), AI-inferred link identifiers (`aiLinks`) and the modification
timestamp.  Presentation-only fields (folder, pinned, date string, summary)
are omitted; no function below reads them.
-/

structure Note where
  id : String
  title : String
  body : String
  tags : List String
  wikiLinks : List String
  aiLinks : List String
  updatedAt : Nat
  deriving DecidableEq, Repr

/-- One stored embedding record (spec §3 `EmbeddingRecord`), keyed by note id. -/
structure EmbeddingRecord where
  noteId : String
  updatedAt : Nat
  vector : List ℚ
  deriving DecidableEq, Repr

/-- An ephemeral similarity-search result (spec §3 `SimilarityResult`). -/
structure SimResult where
  noteId : String
  score : ℚ
  deriving DecidableEq, Repr

/-- Which of the three signal sources produced a graph edge.  In
`src/graph.js` the three cases are distinguished by their visual style:
plain (WikiLink), dashed purple (AI link), dashed low-opacity (tag). -/
inductive EdgeStyle where
  | explicitLink
  | inferred
  | tagOverlap
  deriving DecidableEq, Repr

/-- A deduplicated graph edge (spec §3 `RelationshipEdge`).  `fromId`/`toId`
translate the JS fields `from`/`to` (`from` is a Lean keyword). -/
structure GEdge where
  fromId : String
  toId : String
  style : EdgeStyle
  deriving DecidableEq, Repr

/-- One chat message, role plus content (spec §3 `AgentTurn`). -/
structure ChatMsg where
  role : String
  content : String
  deriving DecidableEq, Repr

/-- A parsed tool call: the JSON object's `tool` and `arguments` fields
(the arguments object is kept as an opaque serialized string). -/
structure ToolCall where
  tool : String
  arguments : String
  deriving DecidableEq, Repr

/-!
## Relationship Resolver: edge construction of `renderGraph` (graph.js 91-154)

The spec calls this operation `computeGraphEdges`.  The JS code builds a
`Map` from a canonical key per unordered id pair to the edge object; we model
the `Map` by an association list in insertion order.
-/

/-- `edgeKey(a, b)` from graph.js: `[a, b].sort().join('::')`. -/
def edgeKey (a b : String) : String :=
  if strLe a b then a ++ "::" ++ b else b ++ "::" ++ a

/-- The edge `Map`, in insertion order. -/
abbrev EdgeMap := List (String × GEdge)

/-- `Map.prototype.has`. -/
def mapHas (m : EdgeMap) (k : String) : Bool := m.any (fun p => p.1 == k)

/-- `Map.prototype.set`: replaces the value at an existing key in place,
otherwise appends the new binding at the end. -/
def mapSet (m : EdgeMap) (k : String) (v : GEdge) : EdgeMap :=
  if mapHas m k then m.map (fun p => if p.1 == k then (k, v) else p)
  else m ++ [(k, v)]

/-- `findNoteIdByTitle` from graph.js: first note whose title matches
case-insensitively. -/
def findNoteIdByTitle (notes : List Note) (title : String) : Option String :=
  (notes.find? (fun note => strToLower note.title == strToLower title)).map (fun n => n.id)

/-- Pass 1, inner loop: the WikiLinks of a single note. -/
def wikiLinksOf (notes : List Note) (note : Note) : List String → EdgeMap → EdgeMap
  | [], m => m
  | linkTitle :: rest, m =>
    wikiLinksOf notes note rest
      (match findNoteIdByTitle notes linkTitle with
       | some targetId =>
         mapSet m (edgeKey note.id targetId) ⟨note.id, targetId, .explicitLink⟩
       | none => m)

/-- Pass 1 (graph.js 101-112): explicit WikiLink edges, unconditional `set`. -/
def wikiLinkPass (notes : List Note) : List Note → EdgeMap → EdgeMap
  | [], m => m
  | note :: rest, m => wikiLinkPass notes rest (wikiLinksOf notes note note.wikiLinks m)

/-- Pass 2, inner loop: the AI links of a single note. -/
def aiLinksOf (notes : List Note) (note : Note) : List String → EdgeMap → EdgeMap
  | [], m => m
  | targetId :: rest, m =>
    aiLinksOf notes note rest
      (if notes.any (fun n => n.id == targetId) then
        (if mapHas m (edgeKey note.id targetId) then m
         else mapSet m (edgeKey note.id targetId) ⟨note.id, targetId, .inferred⟩)
       else m)

/-- Pass 2 (graph.js 114-131): AI-inferred edges, added only at fresh keys. -/
def aiLinkPass (notes : List Note) : List Note → EdgeMap → EdgeMap
  | [], m => m
  | note :: rest, m => aiLinkPass notes rest (aiLinksOf notes note note.aiLinks m)

/-- All index pairs `i < j` of the note list, in the order of the double
`for` loop of graph.js 134-135. -/
def tagPairs : List Note → List (Note × Note)
  | [] => []
  | a :: rest => rest.map (fun b => (a, b)) ++ tagPairs rest

/-- `A.tags.filter(tag => B.tags.includes(tag))` from graph.js 138. -/
def commonTags (A B : Note) : List String :=
  A.tags.filter (fun tag => B.tags.contains tag)

/-- Pass 3 (graph.js 133-151): shared-tag edges, added only at fresh keys. -/
def tagPass : List (Note × Note) → EdgeMap → EdgeMap
  | [], m => m
  | (A, B) :: rest, m =>
    tagPass rest
      (if (commonTags A B).isEmpty then m
       else if mapHas m (edgeKey A.id B.id) then m
       else mapSet m (edgeKey A.id B.id) ⟨A.id, B.id, .tagOverlap⟩)

/-- The deduplicated edge list of `renderGraph` (graph.js 91-154), called
`computeGraphEdges` in the spec: the values of the edge map after the three
passes, in insertion order. -/
def computeGraphEdges (notes : List Note) : List GEdge :=
  (tagPass (tagPairs notes) (aiLinkPass notes notes (wikiLinkPass notes notes []))).map
    (fun p => p.2)

-- Sanity check: the three-note example of spec §8 — Alpha links [[Beta]],
-- Beta and Gamma share the tag `work`.
example :
    computeGraphEdges
      [⟨"1", "Alpha", "see [[Beta]]", [], ["Beta"], [], 0⟩,
       ⟨"2", "Beta", "b", ["work"], [], [], 0⟩,
       ⟨"3", "Gamma", "c", ["work"], [], [], 0⟩] =
      [⟨"1", "2", .explicitLink⟩, ⟨"2", "3", .tagOverlap⟩] := by decide

/-!
## Properties of the edge construction

`PairEq a b c d` states that the unordered pairs `{a, b}` and `{c, d}`
coincide; the three `...Connects` predicates state that a given signal source
(explicit WikiLink, AI-inferred link, shared tag) connects a given unordered
pair of identifiers, in exactly the sense in which the corresponding pass of
graph.js would emit an edge for it.
-/

def PairEq (a b c d : String) : Prop := (a = c ∧ b = d) ∨ (a = d ∧ b = c)

def ExplicitConnects (notes : List Note) (a b : String) : Prop :=
  ∃ n ∈ notes, ∃ t ∈ n.wikiLinks, ∃ tid,
    findNoteIdByTitle notes t = some tid ∧ PairEq n.id tid a b

def InferredConnects (notes : List Note) (a b : String) : Prop :=
  ∃ n ∈ notes, ∃ tid ∈ n.aiLinks,
    notes.any (fun x => x.id == tid) = true ∧ PairEq n.id tid a b

def TagConnects (notes : List Note) (a b : String) : Prop :=
  ∃ p ∈ tagPairs notes, (commonTags p.1 p.2).isEmpty = false ∧ PairEq p.1.id p.2.id a b

/-- A string is the identifier of some note of the input set. -/
def NoteIdIn (notes : List Note) (a : String) : Prop := ∃ n ∈ notes, n.id = a

theorem charLt_asymm {a b : Char} (h : charLt a b = true) : charLt b a = false := by
  simp only [charLt, decide_eq_true_eq] at h
  simp only [charLt, decide_eq_false_iff_not]
  omega

theorem char_eq_of_not_lt {a b : Char} (h1 : charLt a b = false) (h2 : charLt b a = false) :
    a = b := by
  simp only [charLt, decide_eq_false_iff_not, Nat.not_lt] at h1 h2
  exact Char.eq_of_val_eq (UInt32.eq_of_val_eq (Fin.ext (Nat.le_antisymm h2 h1)))

theorem strLeList_total (l1 l2 : List Char) :
    strLeList l1 l2 = true ∨ strLeList l2 l1 = true := by
  induction l1 generalizing l2 with
  | nil => left; rfl
  | cons a as ih =>
    cases l2 with
    | nil => right; rfl
    | cons b bs =>
      by_cases hab : charLt a b = true
      · left; simp [strLeList, hab]
      · by_cases hba : charLt b a = true
        · right; simp [strLeList, hba]
        · have hab' : charLt a b = false := by
            cases h : charLt a b
            · rfl
            · exact absurd h hab
          have hba' : charLt b a = false := by
            cases h : charLt b a
            · rfl
            · exact absurd h hba
          rcases ih bs with h | h
          · left; simp [strLeList, hab', hba', h]
          · right; simp [strLeList, hab', hba', h]

theorem strLeList_antisymm {l1 l2 : List Char} (h1 : strLeList l1 l2 = true)
    (h2 : strLeList l2 l1 = true) : l1 = l2 := by
  induction l1 generalizing l2 with
  | nil =>
    cases l2 with
    | nil => rfl
    | cons b bs => simp [strLeList] at h2
  | cons a as ih =>
    cases l2 with
    | nil => simp [strLeList] at h1
    | cons b bs =>
      by_cases hab : charLt a b = true
      · have := charLt_asymm hab
        simp [strLeList, hab, this] at h2
      · have hab' : charLt a b = false := by
          cases h : charLt a b
          · rfl
          · exact absurd h hab
        by_cases hba : charLt b a = true
        · simp [strLeList, hab', hba] at h1
        · have hba' : charLt b a = false := by
            cases h : charLt b a
            · rfl
            · exact absurd h hba
          have hchar : a = b := char_eq_of_not_lt hab' hba'
          simp [strLeList, hab', hba'] at h1 h2
          rw [hchar, ih h1 h2]

theorem strLe_total (a b : String) : strLe a b = true ∨ strLe b a = true :=
  strLeList_total a.data b.data

theorem strLe_antisymm {a b : String} (h1 : strLe a b = true) (h2 : strLe b a = true) :
    a = b := by
  cases a; cases b
  exact congrArg String.mk (strLeList_antisymm h1 h2)

theorem edgeKey_comm (a b : String) : edgeKey a b = edgeKey b a := by
  unfold edgeKey
  by_cases hab : strLe a b = true
  · by_cases hba : strLe b a = true
    · rw [strLe_antisymm hab hba]
    · simp [hab, hba]
  · rcases strLe_total a b with h | h
    · exact absurd h hab
    · simp [hab, h]

theorem edgeKey_of_pairEq {a b c d : String} (h : PairEq a b c d) :
    edgeKey a b = edgeKey c d := by
  rcases h with ⟨h1, h2⟩ | ⟨h1, h2⟩
  · rw [h1, h2]
  · rw [h1, h2, edgeKey_comm]

theorem pairEq_symm {a b c d : String} (h : PairEq a b c d) : PairEq c d a b := by
  rcases h with ⟨h1, h2⟩ | ⟨h1, h2⟩
  · exact Or.inl ⟨h1.symm, h2.symm⟩
  · exact Or.inr ⟨h2.symm, h1.symm⟩

/-! ### Edge-map lemmas -/

theorem mapHas_iff {m : EdgeMap} {k : String} :
    mapHas m k = true ↔ ∃ p ∈ m, p.1 = k := by
  simp [mapHas, List.any_eq_true]

theorem mapHas_eq_false_iff {m : EdgeMap} {k : String} :
    mapHas m k = false ↔ ∀ p ∈ m, p.1 ≠ k := by
  rw [← Bool.not_eq_true, mapHas_iff]
  push_neg
  rfl

theorem mem_mapSet {m : EdgeMap} {k : String} {v : GEdge} {p : String × GEdge}
    (h : p ∈ mapSet m k v) : p = (k, v) ∨ p ∈ m := by
  unfold mapSet at h
  by_cases hk : mapHas m k = true
  · simp only [hk, if_true, List.mem_map] at h
    rcases h with ⟨q, hq, hfq⟩
    by_cases hq1 : q.1 == k
    · left; rw [← hfq]; simp [hq1]
    · right
      have : (if q.1 == k then (k, v) else q) = q := by
        simp [hq1]
      rw [← hfq, this]; exact hq
  · simp only [Bool.not_eq_true] at hk
    simp only [hk, Bool.false_eq_true, if_false, List.mem_append, List.mem_singleton] at h
    tauto

theorem keys_mapSet (m : EdgeMap) (k : String) (v : GEdge) :
    (mapSet m k v).map Prod.fst =
      if mapHas m k then m.map Prod.fst else m.map Prod.fst ++ [k] := by
  unfold mapSet
  by_cases hk : mapHas m k = true
  · simp only [hk, if_true, List.map_map]
    apply List.map_congr_left
    intro p _
    by_cases hp : p.1 == k
    · simp only [Function.comp, hp, if_true]
      exact (beq_iff_eq.mp hp).symm
    · simp [Function.comp, hp]
  · simp only [Bool.not_eq_true] at hk
    simp [hk]

theorem nodupKeys_mapSet {m : EdgeMap} {k : String} {v : GEdge}
    (h : (m.map Prod.fst).Nodup) : ((mapSet m k v).map Prod.fst).Nodup := by
  rw [keys_mapSet]
  by_cases hk : mapHas m k = true
  · simpa [hk]
  · simp only [Bool.not_eq_true] at hk
    simp only [hk, Bool.false_eq_true, if_false]
    rw [List.nodup_append]
    refine ⟨h, List.nodup_singleton k, ?_⟩
    intro a ha hb
    rw [List.mem_singleton] at hb
    subst hb
    rcases List.mem_map.mp ha with ⟨p, hp, hpk⟩
    exact (mapHas_eq_false_iff.mp hk p hp) hpk

theorem mapHas_mapSet_self (m : EdgeMap) (k : String) (v : GEdge) :
    mapHas (mapSet m k v) k = true := by
  unfold mapSet
  by_cases hk : mapHas m k = true
  · rw [if_pos hk]
    rcases mapHas_iff.mp hk with ⟨p, hp, hpk⟩
    apply mapHas_iff.mpr
    refine ⟨(k, v), List.mem_map.mpr ⟨p, hp, ?_⟩, rfl⟩
    simp [hpk]
  · simp only [Bool.not_eq_true] at hk
    rw [if_neg (by simp [hk])]
    apply mapHas_iff.mpr
    exact ⟨(k, v), List.mem_append.mpr (Or.inr (List.mem_singleton.mpr rfl)), rfl⟩

theorem mapHas_mapSet_mono {m : EdgeMap} {k' : String} (k : String) (v : GEdge)
    (h : mapHas m k' = true) : mapHas (mapSet m k v) k' = true := by
  unfold mapSet
  by_cases hk : mapHas m k = true
  · rw [if_pos hk]
    rcases mapHas_iff.mp h with ⟨p, hp, hpk⟩
    apply mapHas_iff.mpr
    by_cases hp1 : p.1 == k
    · refine ⟨(k, v), List.mem_map.mpr ⟨p, hp, by simp [hp1]⟩, ?_⟩
      rw [← hpk]
      exact (beq_iff_eq.mp hp1).symm
    · exact ⟨p, List.mem_map.mpr ⟨p, hp, by simp [hp1]⟩, hpk⟩
  · simp only [Bool.not_eq_true] at hk
    rw [if_neg (by simp [hk])]
    rcases mapHas_iff.mp h with ⟨p, hp, hpk⟩
    exact mapHas_iff.mpr ⟨p, List.mem_append.mpr (Or.inl hp), hpk⟩

theorem mapHas_append_right (m : EdgeMap) (e : String × GEdge) {k : String}
    (h : mapHas m k = true) : mapHas (m ++ [e]) k = true := by
  rcases mapHas_iff.mp h with ⟨p, hp, hpk⟩
  exact mapHas_iff.mpr ⟨p, List.mem_append.mpr (Or.inl hp), hpk⟩

/-! ### Pass 1: invariant and completeness -/

/-- Invariant maintained by the WikiLink pass: keys are canonical, every
entry is an explicit edge witnessed by a WikiLink of the input set. -/
def WikiInv (notes : List Note) (m : EdgeMap) : Prop :=
  (m.map Prod.fst).Nodup ∧
  ∀ p ∈ m, p.1 = edgeKey p.2.fromId p.2.toId ∧ p.2.style = .explicitLink ∧
    ExplicitConnects notes p.2.fromId p.2.toId

theorem wikiLinksOf_inv {notes : List Note} {n : Note} (hn : n ∈ notes) :
    ∀ (links : List String) (m : EdgeMap), (∀ t ∈ links, t ∈ n.wikiLinks) →
      WikiInv notes m → WikiInv notes (wikiLinksOf notes n links m)
  | [], m, _, hm => hm
  | t :: rest, m, hl, hm => by
    rw [wikiLinksOf]
    apply wikiLinksOf_inv hn rest _ (fun x hx => hl x (List.mem_cons.mpr (Or.inr hx)))
    cases hfind : findNoteIdByTitle notes t with
    | none => exact hm
    | some tid =>
      constructor
      · exact nodupKeys_mapSet hm.1
      · intro p hp
        rcases mem_mapSet hp with hnew | hold
        · subst hnew
          refine ⟨rfl, rfl, n, hn, t, hl t (List.mem_cons.mpr (Or.inl rfl)), tid, hfind, ?_⟩
          exact Or.inl ⟨rfl, rfl⟩
        · exact hm.2 p hold

theorem wikiLinkPass_inv {notes : List Note} :
    ∀ (l : List Note) (m : EdgeMap), (∀ n ∈ l, n ∈ notes) →
      WikiInv notes m → WikiInv notes (wikiLinkPass notes l m)
  | [], m, _, hm => hm
  | n :: rest, m, hl, hm => by
    rw [wikiLinkPass]
    apply wikiLinkPass_inv rest _ (fun x hx => hl x (List.mem_cons.mpr (Or.inr hx)))
    exact wikiLinksOf_inv (hl n (List.mem_cons.mpr (Or.inl rfl))) n.wikiLinks m
      (fun _ ht => ht) hm

theorem wikiLinksOf_has_mono {notes : List Note} {n : Note} {k : String} :
    ∀ (links : List String) (m : EdgeMap), mapHas m k = true →
      mapHas (wikiLinksOf notes n links m) k = true
  | [], _, h => h
  | t :: rest, m, h => by
    rw [wikiLinksOf]
    apply wikiLinksOf_has_mono rest
    cases hfind : findNoteIdByTitle notes t with
    | none => exact h
    | some tid => exact mapHas_mapSet_mono _ _ h

theorem wikiLinkPass_has_mono {notes : List Note} {k : String} :
    ∀ (l : List Note) (m : EdgeMap), mapHas m k = true →
      mapHas (wikiLinkPass notes l m) k = true
  | [], _, h => h
  | n :: rest, m, h => by
    rw [wikiLinkPass]
    exact wikiLinkPass_has_mono rest _ (wikiLinksOf_has_mono n.wikiLinks m h)

theorem wikiLinksOf_has_of_mem {notes : List Note} {n : Note} {t : String} {tid : String}
    (hfind : findNoteIdByTitle notes t = some tid) :
    ∀ (links : List String) (m : EdgeMap), t ∈ links →
      mapHas (wikiLinksOf notes n links m) (edgeKey n.id tid) = true
  | [], _, ht => absurd ht (List.not_mem_nil t)
  | t' :: rest, m, ht => by
    rw [wikiLinksOf]
    rcases List.mem_cons.mp ht with heq | hmem
    · subst heq
      rw [hfind]
      exact wikiLinksOf_has_mono rest _ (mapHas_mapSet_self m _ _)
    · exact wikiLinksOf_has_of_mem hfind rest _ hmem

theorem wikiLinkPass_has_of {notes : List Note} {n : Note} {t : String} {tid : String}
    (ht : t ∈ n.wikiLinks) (hfind : findNoteIdByTitle notes t = some tid) :
    ∀ (l : List Note) (m : EdgeMap), n ∈ l →
      mapHas (wikiLinkPass notes l m) (edgeKey n.id tid) = true
  | [], _, hn => absurd hn (List.not_mem_nil n)
  | n' :: rest, m, hn => by
    rw [wikiLinkPass]
    rcases List.mem_cons.mp hn with heq | hmem
    · subst heq
      exact wikiLinkPass_has_mono rest _ (wikiLinksOf_has_of_mem hfind n.wikiLinks m ht)
    · exact wikiLinkPass_has_of ht hfind rest _ hmem

/-- Completeness of pass 1: every explicitly connected pair has its key in
the map after the pass. -/
theorem explicit_complete {notes : List Note} {a b : String}
    (h : ExplicitConnects notes a b) (m : EdgeMap) :
    mapHas (wikiLinkPass notes notes m) (edgeKey a b) = true := by
  rcases h with ⟨n, hn, t, ht, tid, hfind, hpair⟩
  rw [edgeKey_of_pairEq (pairEq_symm hpair)]
  exact wikiLinkPass_has_of ht hfind notes m hn

/-! ### Pass 2: invariant and completeness -/

/-- An entry appended by the AI-link pass on top of the pass-1 map `m1`. -/
def AiNew (notes : List Note) (m1 : EdgeMap) (p : String × GEdge) : Prop :=
  p.1 = edgeKey p.2.fromId p.2.toId ∧ p.2.style = .inferred ∧
    InferredConnects notes p.2.fromId p.2.toId ∧ mapHas m1 p.1 = false

/-- Invariant maintained by the AI-link pass relative to its start map `m1`. -/
def AiInv (notes : List Note) (m1 m : EdgeMap) : Prop :=
  (m.map Prod.fst).Nodup ∧
  (∀ k, mapHas m1 k = true → mapHas m k = true) ∧
  ∀ p ∈ m, p ∈ m1 ∨ AiNew notes m1 p

theorem aiLinksOf_inv {notes : List Note} {n : Note} {m1 : EdgeMap} (hn : n ∈ notes) :
    ∀ (ts : List String) (m : EdgeMap), (∀ t ∈ ts, t ∈ n.aiLinks) →
      AiInv notes m1 m → AiInv notes m1 (aiLinksOf notes n ts m)
  | [], m, _, hm => hm
  | tid :: rest, m, hl, hm => by
    rw [aiLinksOf]
    apply aiLinksOf_inv hn rest _ (fun x hx => hl x (List.mem_cons.mpr (Or.inr hx)))
    by_cases hany : notes.any (fun x => x.id == tid) = true
    · rw [if_pos hany]
      by_cases hhas : mapHas m (edgeKey n.id tid) = true
      · rw [if_pos hhas]; exact hm
      · rw [if_neg hhas]
        have hhas' : mapHas m (edgeKey n.id tid) = false := by
          cases h : mapHas m (edgeKey n.id tid)
          · rfl
          · exact absurd h hhas
        refine ⟨nodupKeys_mapSet hm.1, fun k hk => mapHas_mapSet_mono _ _ (hm.2.1 k hk), ?_⟩
        intro p hp
        rcases mem_mapSet hp with hnew | hold
        · subst hnew
          right
          refine ⟨rfl, rfl, ⟨n, hn, tid, hl tid (List.mem_cons.mpr (Or.inl rfl)), hany,
            Or.inl ⟨rfl, rfl⟩⟩, ?_⟩
          cases h1 : mapHas m1 (edgeKey n.id tid)
          · rfl
          · exact absurd (hm.2.1 _ h1) (by simp [hhas'])
        · exact hm.2.2 p hold
    · rw [if_neg hany]; exact hm

theorem aiLinkPass_inv {notes : List Note} {m1 : EdgeMap} :
    ∀ (l : List Note) (m : EdgeMap), (∀ n ∈ l, n ∈ notes) →
      AiInv notes m1 m → AiInv notes m1 (aiLinkPass notes l m)
  | [], m, _, hm => hm
  | n :: rest, m, hl, hm => by
    rw [aiLinkPass]
    apply aiLinkPass_inv rest _ (fun x hx => hl x (List.mem_cons.mpr (Or.inr hx)))
    exact aiLinksOf_inv (hl n (List.mem_cons.mpr (Or.inl rfl))) n.aiLinks m
      (fun _ ht => ht) hm

theorem aiLinksOf_has_mono {notes : List Note} {n : Note} {k : String} :
    ∀ (ts : List String) (m : EdgeMap), mapHas m k = true →
      mapHas (aiLinksOf notes n ts m) k = true
  | [], _, h => h
  | tid :: rest, m, h => by
    rw [aiLinksOf]
    apply aiLinksOf_has_mono rest
    by_cases hany : notes.any (fun x => x.id == tid) = true
    · rw [if_pos hany]
      by_cases hhas : mapHas m (edgeKey n.id tid) = true
      · rwa [if_pos hhas]
      · rw [if_neg hhas]
        exact mapHas_mapSet_mono _ _ h
    · rwa [if_neg hany]

theorem aiLinkPass_has_mono {notes : List Note} {k : String} :
    ∀ (l : List Note) (m : EdgeMap), mapHas m k = true →
      mapHas (aiLinkPass notes l m) k = true
  | [], _, h => h
  | n :: rest, m, h => by
    rw [aiLinkPass]
    exact aiLinkPass_has_mono rest _ (aiLinksOf_has_mono n.aiLinks m h)

theorem aiLinksOf_has_of_mem {notes : List Note} {n : Note} {tid : String}
    (hany : notes.any (fun x => x.id == tid) = true) :
    ∀ (ts : List String) (m : EdgeMap), tid ∈ ts →
      mapHas (aiLinksOf notes n ts m) (edgeKey n.id tid) = true
  | [], _, ht => absurd ht (List.not_mem_nil tid)
  | t' :: rest, m, ht => by
    rw [aiLinksOf]
    rcases List.mem_cons.mp ht with heq | hmem
    · subst heq
      rw [if_pos hany]
      by_cases hhas : mapHas m (edgeKey n.id tid) = true
      · rw [if_pos hhas]
        exact aiLinksOf_has_mono rest _ hhas
      · rw [if_neg hhas]
        exact aiLinksOf_has_mono rest _ (mapHas_mapSet_self m _ _)
    · exact aiLinksOf_has_of_mem hany rest _ hmem

theorem aiLinkPass_has_of {notes : List Note} {n : Note} {tid : String}
    (ht : tid ∈ n.aiLinks) (hany : notes.any (fun x => x.id == tid) = true) :
    ∀ (l : List Note) (m : EdgeMap), n ∈ l →
      mapHas (aiLinkPass notes l m) (edgeKey n.id tid) = true
  | [], _, hn => absurd hn (List.not_mem_nil n)
  | n' :: rest, m, hn => by
    rw [aiLinkPass]
    rcases List.mem_cons.mp hn with heq | hmem
    · subst heq
      exact aiLinkPass_has_mono rest _ (aiLinksOf_has_of_mem hany n.aiLinks m ht)
    · exact aiLinkPass_has_of ht hany rest _ hmem

/-- Completeness of pass 2: every AI-connected pair has its key in the map
after the pass. -/
theorem inferred_complete {notes : List Note} {a b : String}
    (h : InferredConnects notes a b) (m : EdgeMap) :
    mapHas (aiLinkPass notes notes m) (edgeKey a b) = true := by
  rcases h with ⟨n, hn, tid, ht, hany, hpair⟩
  rw [edgeKey_of_pairEq (pairEq_symm hpair)]
  exact aiLinkPass_has_of ht hany notes m hn

/-! ### Pass 3: invariant -/

/-- An entry appended by the tag pass on top of the pass-2 map `m2`. -/
def TagNew (notes : List Note) (m2 : EdgeMap) (p : String × GEdge) : Prop :=
  p.1 = edgeKey p.2.fromId p.2.toId ∧ p.2.style = .tagOverlap ∧
    TagConnects notes p.2.fromId p.2.toId ∧ mapHas m2 p.1 = false

/-- Invariant maintained by the tag pass relative to its start map `m2`. -/
def TagInv (notes : List Note) (m2 m : EdgeMap) : Prop :=
  (m.map Prod.fst).Nodup ∧
  (∀ k, mapHas m2 k = true → mapHas m k = true) ∧
  ∀ p ∈ m, p ∈ m2 ∨ TagNew notes m2 p

theorem tagPass_inv {notes : List Note} {m2 : EdgeMap} :
    ∀ (ps : List (Note × Note)) (m : EdgeMap), (∀ q ∈ ps, q ∈ tagPairs notes) →
      TagInv notes m2 m → TagInv notes m2 (tagPass ps m)
  | [], m, _, hm => hm
  | (A, B) :: rest, m, hl, hm => by
    rw [tagPass]
    apply tagPass_inv rest _ (fun x hx => hl x (List.mem_cons.mpr (Or.inr hx)))
    by_cases hc : (commonTags A B).isEmpty = true
    · rw [if_pos hc]; exact hm
    · rw [if_neg hc]
      by_cases hhas : mapHas m (edgeKey A.id B.id) = true
      · rw [if_pos hhas]; exact hm
      · rw [if_neg hhas]
        have hhas' : mapHas m (edgeKey A.id B.id) = false := by
          cases h : mapHas m (edgeKey A.id B.id)
          · rfl
          · exact absurd h hhas
        have hc' : (commonTags A B).isEmpty = false := by
          cases h : (commonTags A B).isEmpty
          · rfl
          · exact absurd h hc
        refine ⟨nodupKeys_mapSet hm.1, fun k hk => mapHas_mapSet_mono _ _ (hm.2.1 k hk), ?_⟩
        intro p hp
        rcases mem_mapSet hp with hnew | hold
        · subst hnew
          right
          refine ⟨rfl, rfl, ⟨(A, B), hl (A, B) (List.mem_cons.mpr (Or.inl rfl)), hc',
            Or.inl ⟨rfl, rfl⟩⟩, ?_⟩
          cases h1 : mapHas m2 (edgeKey A.id B.id)
          · rfl
          · exact absurd (hm.2.1 _ h1) (by simp [hhas'])
        · exact hm.2.2 p hold
    
/-! ### Auxiliary facts for the endpoint theorem -/

theorem findNoteIdByTitle_mem {notes : List Note} {t tid : String}
    (h : findNoteIdByTitle notes t = some tid) : NoteIdIn notes tid := by
  unfold findNoteIdByTitle at h
  cases hf : notes.find? (fun note => strToLower note.title == strToLower t) with
  | none => rw [hf] at h; simp at h
  | some n =>
    rw [hf] at h
    exact ⟨n, List.mem_of_find?_eq_some hf, by injection h⟩

theorem any_id_mem {notes : List Note} {tid : String}
    (h : notes.any (fun x => x.id == tid) = true) : NoteIdIn notes tid := by
  rcases List.any_eq_true.mp h with ⟨n, hn, hid⟩
  exact ⟨n, hn, beq_iff_eq.mp hid⟩

theorem tagPairs_mem {l : List Note} :
    ∀ {p : Note × Note}, p ∈ tagPairs l → p.1 ∈ l ∧ p.2 ∈ l := by
  induction l with
  | nil => intro p hp; simp [tagPairs] at hp
  | cons a rest ih =>
    intro p hp
    rw [tagPairs, List.mem_append] at hp
    rcases hp with hp | hp
    · rcases List.mem_map.mp hp with ⟨b, hb, hpb⟩
      subst hpb
      exact ⟨List.mem_cons.mpr (Or.inl rfl), List.mem_cons.mpr (Or.inr hb)⟩
    · rcases ih hp with ⟨h1, h2⟩
      exact ⟨List.mem_cons.mpr (Or.inr h1), List.mem_cons.mpr (Or.inr h2)⟩

theorem explicitConnects_endpoints {notes : List Note} {a b : String}
    (h : ExplicitConnects notes a b) : NoteIdIn notes a ∧ NoteIdIn notes b := by
  rcases h with ⟨n, hn, t, _, tid, hfind, hpair⟩
  have h1 : NoteIdIn notes n.id := ⟨n, hn, rfl⟩
  have h2 := findNoteIdByTitle_mem hfind
  rcases hpair with ⟨e1, e2⟩ | ⟨e1, e2⟩
  · exact ⟨e1 ▸ h1, e2 ▸ h2⟩
  · exact ⟨e2 ▸ h2, e1 ▸ h1⟩

theorem inferredConnects_endpoints {notes : List Note} {a b : String}
    (h : InferredConnects notes a b) : NoteIdIn notes a ∧ NoteIdIn notes b := by
  rcases h with ⟨n, hn, tid, _, hany, hpair⟩
  have h1 : NoteIdIn notes n.id := ⟨n, hn, rfl⟩
  have h2 := any_id_mem hany
  rcases hpair with ⟨e1, e2⟩ | ⟨e1, e2⟩
  · exact ⟨e1 ▸ h1, e2 ▸ h2⟩
  · exact ⟨e2 ▸ h2, e1 ▸ h1⟩

theorem tagConnects_endpoints {notes : List Note} {a b : String}
    (h : TagConnects notes a b) : NoteIdIn notes a ∧ NoteIdIn notes b := by
  rcases h with ⟨p, hp, _, hpair⟩
  rcases tagPairs_mem hp with ⟨h1, h2⟩
  have ha : NoteIdIn notes p.1.id := ⟨p.1, h1, rfl⟩
  have hb : NoteIdIn notes p.2.id := ⟨p.2, h2, rfl⟩
  rcases hpair with ⟨e1, e2⟩ | ⟨e1, e2⟩
  · exact ⟨e1 ▸ ha, e2 ▸ hb⟩
  · exact ⟨e2 ▸ hb, e1 ▸ ha⟩

/-- Full classification of the entries of the final edge map. -/
theorem edgeMap_classification (notes : List Note) :
    let m1 := wikiLinkPass notes notes []
    let m2 := aiLinkPass notes notes m1
    let m3 := tagPass (tagPairs notes) m2
    (m3.map Prod.fst).Nodup ∧
    ∀ p ∈ m3, p.1 = edgeKey p.2.fromId p.2.toId ∧
      ((p.2.style = .explicitLink ∧ ExplicitConnects notes p.2.fromId p.2.toId) ∨
       (p.2.style = .inferred ∧ InferredConnects notes p.2.fromId p.2.toId ∧
         mapHas m1 p.1 = false) ∨
       (p.2.style = .tagOverlap ∧ TagConnects notes p.2.fromId p.2.toId ∧
         mapHas m2 p.1 = false)) := by
  intro m1 m2 m3
  have hw : WikiInv notes m1 :=
    wikiLinkPass_inv notes [] (fun _ h => h) ⟨List.nodup_nil, by intro p hp; simp at hp⟩
  have ha : AiInv notes m1 m2 :=
    aiLinkPass_inv notes m1 (fun _ h => h) ⟨hw.1, fun _ h => h, fun p hp => Or.inl hp⟩
  have ht : TagInv notes m2 m3 :=
    tagPass_inv (tagPairs notes) m2 (fun _ h => h) ⟨ha.1, fun _ h => h, fun p hp => Or.inl hp⟩
  refine ⟨ht.1, ?_⟩
  intro p hp3
  rcases ht.2.2 p hp3 with hp2 | hnew3
  · rcases ha.2.2 p hp2 with hp1 | hnew2
    · rcases hw.2 p hp1 with ⟨hk, hs, hc⟩
      exact ⟨hk, Or.inl ⟨hs, hc⟩⟩
    · exact ⟨hnew2.1, Or.inr (Or.inl ⟨hnew2.2.1, hnew2.2.2.1, hnew2.2.2.2⟩)⟩
  · exact ⟨hnew3.1, Or.inr (Or.inr ⟨hnew3.2.1, hnew3.2.2.1, hnew3.2.2.2⟩)⟩

/-- C1: for every input note set, the edge list of `computeGraphEdges`
contains at most one edge per unordered pair of identifiers (no two edges of
the list share an unordered pair), and every edge's style records the
highest-priority signal source connecting its pair, in the fixed order
explicit > inferred > tag-overlap: an explicit edge is witnessed by a
WikiLink; an inferred edge is witnessed by an AI link and its pair has no
WikiLink; a tag edge is witnessed by a shared tag and its pair has neither a
WikiLink nor an AI link. -/
theorem computeGraphEdges_dedup_priority (notes : List Note) :
    (computeGraphEdges notes).Pairwise
      (fun e1 e2 => ¬ PairEq e1.fromId e1.toId e2.fromId e2.toId) ∧
    ∀ e ∈ computeGraphEdges notes,
      (e.style = .explicitLink → ExplicitConnects notes e.fromId e.toId) ∧
      (e.style = .inferred → InferredConnects notes e.fromId e.toId ∧
        ¬ ExplicitConnects notes e.fromId e.toId) ∧
      (e.style = .tagOverlap → TagConnects notes e.fromId e.toId ∧
        ¬ InferredConnects notes e.fromId e.toId ∧
        ¬ ExplicitConnects notes e.fromId e.toId) := by
  have hcl := edgeMap_classification notes
  constructor
  · unfold computeGraphEdges
    rw [List.pairwise_map]
    have hkeys : List.Pairwise (fun p q : String × GEdge => p.1 ≠ q.1) _ :=
      List.pairwise_map.mp hcl.1
    apply List.Pairwise.imp_of_mem _ hkeys
    intro p q hp hq hne hpair
    apply hne
    rw [(hcl.2 p hp).1, (hcl.2 q hq).1]
    exact edgeKey_of_pairEq hpair
  · intro e he
    rcases List.mem_map.mp he with ⟨p, hp, hpe⟩
    rcases hcl.2 p hp with ⟨hk, hcase⟩
    subst hpe
    rcases hcase with ⟨hs, hc⟩ | ⟨hs, hc, hm1⟩ | ⟨hs, hc, hm2⟩
    · refine ⟨fun _ => hc, fun h => ?_, fun h => ?_⟩ <;> rw [hs] at h <;> cases h
    · refine ⟨fun h => ?_, fun _ => ⟨hc, ?_⟩, fun h => ?_⟩
      · rw [hs] at h; cases h
      · intro hec
        have := explicit_complete hec []
        rw [← hk] at this
        rw [this] at hm1
        cases hm1
      · rw [hs] at h; cases h
    · refine ⟨fun h => ?_, fun h => ?_, fun _ => ⟨hc, ?_, ?_⟩⟩
      · rw [hs] at h; cases h
      · rw [hs] at h; cases h
      · intro hic
        have := inferred_complete hic (wikiLinkPass notes notes [])
        rw [← hk] at this
        rw [this] at hm2
        cases hm2
      · intro hec
        have h1 := explicit_complete hec []
        have h2 : mapHas (aiLinkPass notes notes (wikiLinkPass notes notes []))
            (edgeKey p.2.fromId p.2.toId) = true :=
          aiLinkPass_has_mono notes _ h1
        rw [← hk] at h2
        rw [h2] at hm2
        cases hm2

/-- The three-note corpus of the spec's §8 example. -/
def exNotes : List Note :=
  [⟨"1", "Alpha", "see [[Beta]]", [], ["Beta"], [], 0⟩,
   ⟨"2", "Beta", "b", ["work"], [], [], 0⟩,
   ⟨"3", "Gamma", "c", ["work"], [], [], 0⟩]

/-- Witness for C1 at the spec's own example corpus: the explicit
(Alpha, Beta) edge is in the output and the theorem yields its WikiLink
witness. -/
theorem computeGraphEdges_dedup_priority_witness :
    ExplicitConnects exNotes "1" "2" :=
  ((computeGraphEdges_dedup_priority exNotes).2 ⟨"1", "2", .explicitLink⟩ (by decide)).1 rfl

/-- C10: every edge produced by the graph construction connects two
identifiers of notes present in the input note set.  (In particular a
WikiLink whose title matches no note and an AI link whose target id is not
in the set contribute no edge.) -/
theorem computeGraphEdges_endpoints (notes : List Note) :
    ∀ e ∈ computeGraphEdges notes, NoteIdIn notes e.fromId ∧ NoteIdIn notes e.toId := by
  intro e he
  rcases List.mem_map.mp he with ⟨p, hp, hpe⟩
  rcases (edgeMap_classification notes).2 p hp with ⟨_, hcase⟩
  subst hpe
  rcases hcase with ⟨_, hc⟩ | ⟨_, hc, _⟩ | ⟨_, hc, _⟩
  · exact explicitConnects_endpoints hc
  · exact inferredConnects_endpoints hc
  · exact tagConnects_endpoints hc

/-- Witness for C10 at the spec's example corpus. -/
theorem computeGraphEdges_endpoints_witness :
    NoteIdIn exNotes "1" ∧ NoteIdIn exNotes "2" :=
  computeGraphEdges_endpoints exNotes ⟨"1", "2", .explicitLink⟩ (by decide)

/-!
## Embedding Index: `VectorStore.cosineSimilarity` (vector-store.js 69-85)

The numeric claims are settled over the real numbers; the JS loop runs over
the indices of `vecA`, so the model assumes vectors of equal dimensionality
(spec §3: fixed dimensionality per embedding model) and uses `zipWith`.
-/

open scoped Classical in
/-- `cosineSimilarity(vecA, vecB)` from vector-store.js: dot product over the
product of the magnitudes, with the zero-magnitude guard returning 0. -/
noncomputable def cosineSimilarity (vecA vecB : List ℝ) : ℝ :=
  let dotProduct := (List.zipWith (fun a b => a * b) vecA vecB).sum
  let magnitudeA := Real.sqrt (List.zipWith (fun a b => a * b) vecA vecA).sum
  let magnitudeB := Real.sqrt (List.zipWith (fun a b => a * b) vecB vecB).sum
  if magnitudeA = 0 ∨ magnitudeB = 0 then 0
  else dotProduct / (magnitudeA * magnitudeB)

/-- The self dot product of a vector is a sum of squares, hence nonnegative. -/
theorem selfDot_nonneg (v : List ℝ) : 0 ≤ (List.zipWith (fun a b => a * b) v v).sum := by
  induction v with
  | nil => simp
  | cons x xs ih =>
    simp only [List.zipWith_cons_cons, List.sum_cons]
    have : 0 ≤ x * x := mul_self_nonneg x
    linarith

/-- C7 counterexample: at the zero vector `[0]`, `cosineSimilarity(v, v)` is
0, not 1 — the zero-magnitude guard fires — so "for every vector v,
cosineSimilarity(v, v) = 1" is false as stated. -/
theorem cosineSimilarity_self_zero_counterexample :
    cosineSimilarity [(0 : ℝ)] [(0 : ℝ)] = 0 ∧ (0 : ℝ) ≠ 1 := by
  constructor
  · unfold cosineSimilarity
    simp
  · norm_num

/-- C7 (amended): for every vector `v` of nonzero magnitude,
`cosineSimilarity(v, v) = 1` exactly (in the real-number model), and for
every vector `w`, `cosineSimilarity(w, zero-vector) = 0`; at the zero vector
itself the self-similarity is 0, not 1. -/
theorem cosineSimilarity_self_and_zero (v : List ℝ)
    (h : (List.zipWith (fun a b => a * b) v v).sum ≠ 0) :
    cosineSimilarity v v = 1 ∧
    ∀ w : List ℝ, cosineSimilarity w (List.replicate w.length 0) = 0 := by
  constructor
  · unfold cosineSimilarity
    have hpos : 0 < (List.zipWith (fun a b => a * b) v v).sum :=
      lt_of_le_of_ne (selfDot_nonneg v) (Ne.symm h)
    have hsq : Real.sqrt (List.zipWith (fun a b => a * b) v v).sum ≠ 0 := by
      rw [Ne, Real.sqrt_eq_zero']
      push_neg
      exact hpos
    rw [if_neg (by push_neg; exact ⟨hsq, hsq⟩)]
    rw [Real.mul_self_sqrt (le_of_lt hpos)]
    exact div_self h
  · intro w
    unfold cosineSimilarity
    have hz : (List.zipWith (fun a b => a * b) (List.replicate w.length (0 : ℝ))
        (List.replicate w.length 0)).sum = 0 := by
      induction w with
      | nil => simp
      | cons x xs ih => simp [ih]
    rw [if_pos]
    right
    rw [hz]
    exact Real.sqrt_zero

/-- Witness for C7 at `v = [1]`: the magnitude is nonzero, self-similarity
is exactly 1 and similarity against the zero vector is 0. -/
theorem cosineSimilarity_self_and_zero_witness :
    cosineSimilarity [(1 : ℝ)] [(1 : ℝ)] = 1 ∧
    ∀ w : List ℝ, cosineSimilarity w (List.replicate w.length 0) = 0 :=
  cosineSimilarity_self_and_zero [(1 : ℝ)] (by norm_num)

/-!
## Embedding Index: `VectorStore.indexNote` (vector-store.js 11-34)

The `db.embeddings` table (get/put keyed by note id) is modelled as an
association list; the external `AIService.generateEmbedding` call is a
parameter of type `Except String (List ℚ)` — `.error` models the call
throwing, which the `try`/`catch` of `indexNote` swallows.  `indexNote`
itself is a total function on the store: it never throws to its caller.
-/

/-- `db.embeddings.get(id)`. -/
def embGet (store : List (String × EmbeddingRecord)) (id : String) :
    Option EmbeddingRecord :=
  (store.find? (fun p => p.1 == id)).map (fun p => p.2)

/-- `db.embeddings.put(record)`: upsert keyed by note id. -/
def embPut (store : List (String × EmbeddingRecord)) (r : EmbeddingRecord) :
    List (String × EmbeddingRecord) :=
  if store.any (fun p => p.1 == r.noteId) then
    store.map (fun p => if p.1 == r.noteId then (r.noteId, r) else p)
  else store ++ [(r.noteId, r)]

/-- The freshness test of vector-store.js line 16:
`existing && existing.updatedAt >= note.updatedAt`. -/
def embIsFresh (store : List (String × EmbeddingRecord)) (note : Note) : Bool :=
  match embGet store note.id with
  | some existing => decide (existing.updatedAt ≥ note.updatedAt)
  | none => false

/-- `VectorStore.indexNote(note)`: returns the store after the call.  `now`
is the `Date.now()` value of the put; `embedResult` is the outcome of the
`AIService.generateEmbedding` call. -/
def indexNote (store : List (String × EmbeddingRecord)) (now : Nat)
    (embedResult : Except String (List ℚ)) (note : Note) :
    List (String × EmbeddingRecord) :=
  if note.body == "" then store
  else if embIsFresh store note then store
  else
    match embedResult with
    | .ok vector => embPut store ⟨note.id, now, vector⟩
    | .error _ => store

/-- C8: `indexNote` is a no-op when the stored record is fresh (its
generation timestamp ≥ the note's modification timestamp), and it fails
silently — it is a total function into the store type, so it never throws,
and it returns the store unchanged — when the note body is empty or the
embedding-generation call fails. -/
theorem indexNote_fresh_and_silent (store : List (String × EmbeddingRecord))
    (now : Nat) (embedResult : Except String (List ℚ)) (note : Note) :
    ((∃ r, embGet store note.id = some r ∧ note.updatedAt ≤ r.updatedAt) →
      indexNote store now embedResult note = store) ∧
    (note.body = "" → indexNote store now embedResult note = store) ∧
    ((∃ e, embedResult = .error e) → indexNote store now embedResult note = store) := by
  refine ⟨?_, ?_, ?_⟩
  · rintro ⟨r, hget, hfresh⟩
    have hfresh' : embIsFresh store note = true := by
      unfold embIsFresh
      rw [hget]
      simpa [ge_iff_le] using hfresh
    unfold indexNote
    by_cases hb : (note.body == "") = true
    · rw [if_pos hb]
    · rw [if_neg hb, if_pos hfresh']
  · intro hb
    unfold indexNote
    rw [if_pos (by simp [hb])]
  · rintro ⟨e, he⟩
    subst he
    unfold indexNote
    by_cases hb : (note.body == "") = true
    · rw [if_pos hb]
    · rw [if_neg hb]
      by_cases hf : embIsFresh store note = true
      · rw [if_pos hf]
      · rw [if_neg hf]

/-- Witness for C8: a failing embedding call on a nonempty note leaves an
empty store unchanged, and a fresh stored record short-circuits the call. -/
theorem indexNote_fresh_and_silent_witness :
    indexNote [] 7 (.error "fetch failed") ⟨"1", "T", "hello", [], [], [], 5⟩ = [] ∧
    indexNote [("1", ⟨"1", 9, [1]⟩)] 7 (.ok [1]) ⟨"1", "T", "hello", [], [], [], 5⟩ =
      [("1", ⟨"1", 9, [1]⟩)] := by
  constructor
  · exact (indexNote_fresh_and_silent [] 7 (.error "fetch failed")
      ⟨"1", "T", "hello", [], [], [], 5⟩).2.2 ⟨"fetch failed", rfl⟩
  · exact (indexNote_fresh_and_silent [("1", ⟨"1", 9, [1]⟩)] 7 (.ok [1])
      ⟨"1", "T", "hello", [], [], [], 5⟩).1 ⟨⟨"1", 9, [1]⟩, rfl, by norm_num⟩

/-!
## Tool Registry: `AITools.execute` (tabs.js 310-320)

The registry lookup `this[name]` is modelled by a function
`tools : String → Option (String → Except String String)`; a tool
implementation returning `.error` models it throwing, which `execute`
catches.  `execute` is a total function into `String`: it never throws to
its caller.
-/

/-- `AITools.execute(name, args)` from tabs.js. -/
def AITools_execute (tools : String → Option (String → Except String String))
    (name : String) (args : String) : String :=
  match tools name with
  | some f =>
    match f args with
    | .ok r => r
    | .error e => "Error execution tool " ++ name ++ ": " ++ e
  | none => "Error: Tool " ++ name ++ " not found."

/-- C5: `execute(name, args)` never throws — it is total into `String` —
and fails closed: an unknown tool name yields the textual "not found" error
result, an exception raised inside a tool implementation is converted into a
textual error result, and a successful tool run returns its result text. -/
theorem AITools_execute_fails_closed
    (tools : String → Option (String → Except String String))
    (name args : String) :
    (tools name = none →
      AITools_execute tools name args = "Error: Tool " ++ name ++ " not found.") ∧
    (∀ f e, tools name = some f → f args = .error e →
      AITools_execute tools name args = "Error execution tool " ++ name ++ ": " ++ e) ∧
    (∀ f r, tools name = some f → f args = .ok r →
      AITools_execute tools name args = r) := by
  refine ⟨?_, ?_, ?_⟩
  · intro h
    simp [AITools_execute, h]
  · intro f e hf he
    simp [AITools_execute, hf, he]
  · intro f r hf hr
    simp [AITools_execute, hf, hr]

/-- Witness for C5: an unknown name in the empty registry produces the
"not found" text; a throwing implementation produces the conversion text. -/
theorem AITools_execute_fails_closed_witness :
    AITools_execute (fun _ => none) "delete_all" "x" =
      "Error: Tool delete_all not found." ∧
    AITools_execute (fun _ => some (fun _ => .error "boom")) "create_note" "x" =
      "Error execution tool create_note: boom" := by
  constructor
  · exact (AITools_execute_fails_closed (fun _ => none) "delete_all" "x").1 rfl
  · exact (AITools_execute_fails_closed (fun _ => some (fun _ => .error "boom"))
      "create_note" "x").2.1 (fun _ => .error "boom") "boom" rfl rfl

/-!
## Agent Loop: the `while` loop of `ChatManager.sendMessage` (part_003 2184-2226)

External collaborators are parameters:
* `respond i` is the result of the `i`-th `AIService.chat` call of the turn;
  `.error e` models the call throwing (timeout, non-2xx) with message `e`;
* `parse` models the tool-call extraction of lines 2192-2206 (brace-matching
  regex, `JSON.parse`, and the `parsed.tool && parsed.arguments` check); a
  `none` result is the "treat as plain text" case;
* `exec` is `window.AITools.execute` (total — see `AITools_execute`);
* `stringify` is `JSON.stringify` on the tool-call object.

`runAgentLoop fuel i msgs` models the loop with `fuel = MAX_TURNS - turn`
remaining iterations, `i` chat calls already made, and working message list
`msgs`.  It returns the `finalResponse` (`.ok ""` when the turn cap was hit,
`.error e` when a chat call threw) together with the number of chat calls
made.
-/

def MAX_TURNS : Nat := 5

def runAgentLoop (respond : Nat → Except String String)
    (parse : String → Option ToolCall) (exec : ToolCall → String)
    (stringify : ToolCall → String) :
    Nat → Nat → List ChatMsg → Except String String × Nat
  | 0, _, _ => (.ok "", 0)
  | fuel + 1, i, msgs =>
    match respond i with
    | .error e => (.error e, 1)
    | .ok responseText =>
      match parse responseText with
      | some toolCall =>
        let toolResult := exec toolCall
        let next := runAgentLoop respond parse exec stringify fuel (i + 1)
          (msgs ++ [⟨"assistant", stringify toolCall⟩,
                    ⟨"user", "Tool Result: " ++ toolResult⟩])
        (next.1, next.2 + 1)
      | none => (.ok responseText, 1)

/-- The fixed fallback of part_003 line 2226. -/
def fallbackMessage : String :=
  "I'm sorry, I got stuck in a loop trying to perform actions."

/-- `ChatManager.sendMessage` after the user message was accepted: the user
turn is persisted (line 2102), then the agent loop runs inside `try`; on
success the final response (with the empty-string fallback of line 2226) is
persisted as the assistant turn and returned; on a thrown chat error the
`catch` (lines 2242-2245) returns the error text without touching the
persisted history.  `db` is the persisted message table for the active
conversation, `initMsgs` the working message list (system prompt plus
bounded history). -/
def sendMessageModel (respond : Nat → Except String String)
    (parse : String → Option ToolCall) (exec : ToolCall → String)
    (stringify : ToolCall → String) (initMsgs : List ChatMsg)
    (db : List ChatMsg) (message : String) : List ChatMsg × String :=
  let db1 := db ++ [⟨"user", message⟩]
  match (runAgentLoop respond parse exec stringify MAX_TURNS 0 initMsgs).1 with
  | .error e => (db1, "Error: " ++ e)
  | .ok fin =>
    let finalResponse := if fin == "" then fallbackMessage else fin
    (db1 ++ [⟨"assistant", finalResponse⟩], finalResponse)

/-- The loop makes at most `fuel` chat calls. -/
theorem runAgentLoop_calls_le (respond : Nat → Except String String)
    (parse : String → Option ToolCall) (exec : ToolCall → String)
    (stringify : ToolCall → String) :
    ∀ (fuel i : Nat) (msgs : List ChatMsg),
      (runAgentLoop respond parse exec stringify fuel i msgs).2 ≤ fuel
  | 0, _, _ => Nat.le_refl 0
  | fuel + 1, i, msgs => by
    rw [runAgentLoop]
    split
    · dsimp only; omega
    · split
      · dsimp only
        exact Nat.add_le_add_right
          (runAgentLoop_calls_le respond parse exec stringify fuel (i + 1) _) 1
      · dsimp only; omega

/-- C2: one user turn of the agent loop performs at most `MAX_TURNS = 5`
calls to the external chat service, whatever the conversation state and the
sequence of model responses — in particular even when every response parses
as a valid tool call. -/
theorem runAgentLoop_at_most_five_calls (respond : Nat → Except String String)
    (parse : String → Option ToolCall) (exec : ToolCall → String)
    (stringify : ToolCall → String) (initMsgs : List ChatMsg) :
    (runAgentLoop respond parse exec stringify MAX_TURNS 0 initMsgs).2 ≤ 5 :=
  runAgentLoop_calls_le respond parse exec stringify MAX_TURNS 0 initMsgs

/-- C4: if a call to the external chat service fails during the user turn
(the loop result is a thrown error), `sendMessage` returns the user-visible
error string through the `catch` — it is a total function, nothing
propagates — and the persisted history gains only the user turn saved before
the `try`: no assistant turn, partial or otherwise, is written. -/
theorem sendMessage_chat_failure (respond : Nat → Except String String)
    (parse : String → Option ToolCall) (exec : ToolCall → String)
    (stringify : ToolCall → String) (initMsgs db : List ChatMsg) (message : String)
    (h : ∃ e, (runAgentLoop respond parse exec stringify MAX_TURNS 0 initMsgs).1 =
      .error e) :
    (sendMessageModel respond parse exec stringify initMsgs db message).1 =
      db ++ [⟨"user", message⟩] ∧
    ∃ e, (sendMessageModel respond parse exec stringify initMsgs db message).2 =
      "Error: " ++ e := by
  rcases h with ⟨e, he⟩
  constructor
  · simp [sendMessageModel, he]
  · exact ⟨e, by simp [sendMessageModel, he]⟩

/-- Witness for C4: a chat service that times out on the very first call.
The persisted history holds only the user turn and the returned text is the
error string. -/
theorem sendMessage_chat_failure_witness :
    (sendMessageModel (fun _ => .error "timeout") (fun _ => none) (fun _ => "")
      (fun _ => "") [] [] "hi").1 = [⟨"user", "hi"⟩] ∧
    ∃ e, (sendMessageModel (fun _ => .error "timeout") (fun _ => none) (fun _ => "")
      (fun _ => "") [] [] "hi").2 = "Error: " ++ e := by
  have h := sendMessage_chat_failure (fun _ => .error "timeout") (fun _ => none)
    (fun _ => "") (fun _ => "") [] [] "hi" ⟨"timeout", rfl⟩
  simpa using h

/-- If every one of the first `fuel` responses (counting from call index `i`)
parses as a tool call, the loop exhausts its fuel and ends with the empty
final response. -/
theorem runAgentLoop_all_tools (respond : Nat → Except String String)
    (parse : String → Option ToolCall) (exec : ToolCall → String)
    (stringify : ToolCall → String) :
    ∀ (fuel i : Nat) (msgs : List ChatMsg),
      (∀ j, j < fuel → ∃ s tc, respond (i + j) = .ok s ∧ parse s = some tc) →
      (runAgentLoop respond parse exec stringify fuel i msgs).1 = .ok ""
  | 0, _, _, _ => rfl
  | fuel + 1, i, msgs, h => by
    obtain ⟨s, tc, hs, htc⟩ := h 0 (Nat.succ_pos fuel)
    rw [Nat.add_zero] at hs
    rw [runAgentLoop, hs]
    dsimp only
    rw [htc]
    dsimp only
    apply runAgentLoop_all_tools respond parse exec stringify fuel (i + 1)
    intro j hj
    obtain ⟨s', tc', h1, h2⟩ := h (j + 1) (Nat.succ_lt_succ hj)
    refine ⟨s', tc', ?_, h2⟩
    have heq : i + (j + 1) = i + 1 + j := by omega
    rwa [heq] at h1

/-- If the first `k` responses parse as tool calls and the `(k+1)`-st is a
successful response that does not parse as a tool call, with `k` within the
fuel, the loop terminates with exactly that response text. -/
theorem runAgentLoop_first_text (respond : Nat → Except String String)
    (parse : String → Option ToolCall) (exec : ToolCall → String)
    (stringify : ToolCall → String) :
    ∀ (k fuel i : Nat) (msgs : List ChatMsg) (s : String), k < fuel →
      (∀ j, j < k → ∃ s' tc, respond (i + j) = .ok s' ∧ parse s' = some tc) →
      respond (i + k) = .ok s → parse s = none →
      (runAgentLoop respond parse exec stringify fuel i msgs).1 = .ok s
  | 0, fuel, i, msgs, s, hk, _, hs, hp => by
    cases fuel with
    | zero => omega
    | succ f =>
      rw [Nat.add_zero] at hs
      rw [runAgentLoop, hs]
      dsimp only
      rw [hp]
  | k + 1, fuel, i, msgs, s, hk, htools, hs, hp => by
    cases fuel with
    | zero => omega
    | succ f =>
      obtain ⟨s0, tc0, h0, h0p⟩ := htools 0 (Nat.succ_pos k)
      rw [Nat.add_zero] at h0
      rw [runAgentLoop, h0]
      dsimp only
      rw [h0p]
      dsimp only
      apply runAgentLoop_first_text respond parse exec stringify k f (i + 1) _ s
        (Nat.lt_of_succ_lt_succ hk)
      · intro j hj
        obtain ⟨s', tc', h1, h2⟩ := htools (j + 1) (Nat.succ_lt_succ hj)
        refine ⟨s', tc', ?_, h2⟩
        have heq : i + (j + 1) = i + 1 + j := by omega
        rwa [heq] at h1
      · have heq : i + (k + 1) = i + 1 + k := by omega
        rwa [heq] at hs
      · exact hp

/-- C6 counterexample: with a model whose first response is the empty string
(which does not parse as a tool call), the final answer is the fixed
fallback message, not the model's text "" — so "the final answer is the
model's text from the first iteration whose response did not parse as a tool
call" is false as stated. -/
theorem sendMessage_final_answer_counterexample :
    (sendMessageModel (fun _ => .ok "") (fun _ => none) (fun _ => "") (fun _ => "")
      [] [] "hi").2 = fallbackMessage ∧ fallbackMessage ≠ "" := by
  constructor
  · rfl
  · decide

/-- C6 (amended): when the agent loop terminates, the final answer is the
model's text from the first iteration whose response did not parse as a tool
call, except that an empty text is replaced by the fixed fallback message;
if the turn cap of `MAX_TURNS = 5` is reached with every response parsing as
a tool call, the final answer is the fallback message saying it got stuck in
a loop. -/
theorem sendMessage_final_answer (respond : Nat → Except String String)
    (parse : String → Option ToolCall) (exec : ToolCall → String)
    (stringify : ToolCall → String) (initMsgs db : List ChatMsg) (message : String) :
    ((∀ j, j < MAX_TURNS → ∃ s tc, respond j = .ok s ∧ parse s = some tc) →
      (sendMessageModel respond parse exec stringify initMsgs db message).2 =
        fallbackMessage) ∧
    (∀ k s, k < MAX_TURNS →
      (∀ j, j < k → ∃ s' tc, respond j = .ok s' ∧ parse s' = some tc) →
      respond k = .ok s → parse s = none →
      (sendMessageModel respond parse exec stringify initMsgs db message).2 =
        if s == "" then fallbackMessage else s) := by
  constructor
  · intro h
    have hloop : (runAgentLoop respond parse exec stringify MAX_TURNS 0 initMsgs).1 =
        .ok "" := by
      apply runAgentLoop_all_tools
      intro j hj
      rw [Nat.zero_add]
      exact h j hj
    simp [sendMessageModel, hloop]
  · intro k s hk htools hs hp
    have hloop : (runAgentLoop respond parse exec stringify MAX_TURNS 0 initMsgs).1 =
        .ok s := by
      apply runAgentLoop_first_text respond parse exec stringify k MAX_TURNS 0 initMsgs s hk
      · intro j hj
        rw [Nat.zero_add]
        exact htools j hj
      · rw [Nat.zero_add]
        exact hs
      · exact hp
    simp only [sendMessageModel, hloop]

/-- Witness for C6 at a model that answers "hello" immediately: the final
answer is "hello". -/
theorem sendMessage_final_answer_witness :
    (sendMessageModel (fun _ => .ok "hello") (fun _ => none) (fun _ => "")
      (fun _ => "") [] [] "q").2 = "hello" := by
  have h := (sendMessage_final_answer (fun _ => .ok "hello") (fun _ => none)
    (fun _ => "") (fun _ => "") [] [] "q").2 0 "hello"
    (by norm_num [MAX_TURNS]) (fun j hj => absurd hj (Nat.not_lt_zero j)) rfl rfl
  simpa using h

/-!
## Context Assembler: retrieval resolution of `sendMessage` (part_003 2122-2159)

The spec calls this step `assembleContext`.  Ambient UI state is passed
explicitly: `activeNoteId` is the active-note global, `ragSearch` is
`VectorStore.search`, `dbGet` is `NoteDAO.get`.  The result records the
assembled context string, the notes used, and whether the semantic-search
fallback was invoked.
-/

/-- One rendered context block: `[Note: title (ID: id)]` then the body. -/
def noteBlock (n : Note) : String :=
  "[Note: " ++ n.title ++ " (ID: " ++ n.id ++ ")]\n" ++ n.body

/-- Stable insertion of a note into a list sorted by descending title
length: the note goes before the first element whose title is not longer. -/
def insertByTitleLen (n : Note) : List Note → List Note
  | [] => [n]
  | m :: rest =>
    if m.title.length ≤ n.title.length then n :: m :: rest
    else m :: insertByTitleLen n rest

/-- `[...notes].sort((a, b) => b.title.length - a.title.length)` from
part_003 line 2138: a stable sort by descending title length (JS engines
implement a stable sort; title lengths here are code-unit counts, modelled
as character counts). -/
def sortByTitleLenDesc : List Note → List Note
  | [] => []
  | n :: rest => insertByTitleLen n (sortByTitleLenDesc rest)

/-- The explicit-mention matches of part_003 lines 2137-2143: notes whose
`@title` occurs in the message, excluding the active note, scanned
longest-title-first. -/
def mentionMatches (notes : List Note) (activeNoteId : Option String)
    (message : String) : List Note :=
  (sortByTitleLenDesc notes).filter
    (fun n => strIncludes message ("@" ++ n.title) && activeNoteId != some n.id)

/-- Result of the context-resolution step. -/
structure CtxResult where
  context : String
  usedNotes : List Note
  ragCalled : Bool
  deriving Repr

/-- The context resolution of `sendMessage` (part_003 2122-2159): active
note first, then explicit mentions; the semantic-search fallback
(`VectorStore.search(message, 3)`) runs only when there are no mentions and
no active note. -/
def resolveContext (notes : List Note) (activeNoteId : Option String)
    (message : String) (ragSearch : String → Nat → List SimResult)
    (dbGet : String → Option Note) : CtxResult :=
  let active : Option Note :=
    match activeNoteId with
    | some aid => notes.find? (fun n => n.id == aid)
    | none => none
  let baseCtx : String :=
    match active with
    | some activeNote =>
      "CURRENTLY VIEWING NOTE:\n" ++ noteBlock activeNote ++ "\n\n---\n\n"
    | none => ""
  let baseUsed : List Note :=
    match active with
    | some activeNote => [activeNote]
    | none => []
  let mentions := mentionMatches notes activeNoteId message
  if !mentions.isEmpty then
    { context := baseCtx ++ "User explicitly mentioned these notes:\n\n" ++
        joinSep "\n\n---\n\n" (mentions.map noteBlock),
      usedNotes := baseUsed ++ mentions,
      ragCalled := false }
  else if activeNoteId == none then
    let results := ragSearch message 3
    let ragNotes := (results.map (fun r => dbGet r.noteId)).filterMap (fun x => x)
    if !ragNotes.isEmpty then
      { context := joinSep "\n\n---\n\n" (ragNotes.map noteBlock),
        usedNotes := ragNotes,
        ragCalled := true }
    else
      { context := baseCtx, usedNotes := baseUsed, ragCalled := true }
  else
    { context := baseCtx, usedNotes := baseUsed, ragCalled := false }

/-! ### Substring lemmas for the context string -/

theorem startsWithList_self_append : ∀ (p post : List Char),
    startsWithList (p ++ post) p = true
  | [], post => by cases post <;> rfl
  | a :: ps, post => by
    simp [startsWithList, startsWithList_self_append ps post]

theorem containsSub_nil_pat : ∀ (hay : List Char), containsSub hay [] = true
  | [] => rfl
  | h :: t => by simp [containsSub, startsWithList]

theorem containsSub_self_append (pat post : List Char) :
    containsSub (pat ++ post) pat = true := by
  cases pat with
  | nil => exact containsSub_nil_pat post
  | cons p ps =>
    have h := startsWithList_self_append (p :: ps) post
    simp only [List.cons_append, containsSub, Bool.or_eq_true]
    left
    simpa using h

theorem containsSub_append_of (pre : List Char) {hay pat : List Char}
    (h : containsSub hay pat = true) : containsSub (pre ++ hay) pat = true := by
  induction pre with
  | nil => exact h
  | cons x xs ih =>
    simp only [List.cons_append, containsSub, Bool.or_eq_true]
    exact Or.inr ih

theorem startsWithList_nil_pat (l : List Char) : startsWithList l [] = true := by
  cases l <;> rfl

theorem startsWithList_extend {post : List Char} : ∀ {p l : List Char},
    startsWithList l p = true → startsWithList (l ++ post) p = true := by
  intro p
  induction p with
  | nil => intro l _; exact startsWithList_nil_pat _
  | cons c cs ih =>
    intro l h
    cases l with
    | nil => simp [startsWithList] at h
    | cons y ys =>
      simp only [startsWithList, Bool.and_eq_true] at h
      simp only [List.cons_append, startsWithList, Bool.and_eq_true]
      exact ⟨h.1, ih h.2⟩

theorem containsSub_append_right (post : List Char) : ∀ {hay pat : List Char},
    containsSub hay pat = true → containsSub (hay ++ post) pat = true := by
  intro hay
  induction hay with
  | nil =>
    intro pat h
    cases pat with
    | nil => exact containsSub_nil_pat post
    | cons c cs => simp [containsSub, startsWithList] at h
  | cons x xs ih =>
    intro pat h
    simp only [containsSub, Bool.or_eq_true] at h
    simp only [List.cons_append, containsSub, Bool.or_eq_true]
    rcases h with h | h
    · exact Or.inl (startsWithList_extend h)
    · exact Or.inr (ih h)

theorem containsSub_suffix (pre pat : List Char) :
    containsSub (pre ++ pat) pat = true := by
  have h := containsSub_append_of pre (containsSub_self_append pat [])
  simpa using h

/-- The rendered block of a note contains its full body. -/
theorem noteBlock_contains_body (n : Note) :
    containsSub (noteBlock n).data n.body.data = true := by
  have h : (noteBlock n).data =
      ("[Note: " ++ n.title ++ " (ID: " ++ n.id ++ ")]\n").data ++ n.body.data := by
    simp [noteBlock, String.data_append]
  rw [h]
  exact containsSub_suffix _ _

/-- The joined block list contains the body of every listed note. -/
theorem joinSep_contains_body (sep : String) {l : List Note} {n : Note}
    (hn : n ∈ l) : containsSub (joinSep sep (l.map noteBlock)).data n.body.data = true := by
  induction l with
  | nil => cases hn
  | cons m rest ih =>
    rcases List.mem_cons.mp hn with heq | hmem
    · subst heq
      cases rest with
      | nil => exact noteBlock_contains_body n
      | cons r rs =>
        have h : (joinSep sep ((n :: r :: rs).map noteBlock)).data =
            (noteBlock n).data ++ (sep ++ joinSep sep ((r :: rs).map noteBlock)).data := by
          simp [joinSep, String.data_append]
        rw [h]
        exact containsSub_append_right _ (noteBlock_contains_body n)
    · cases rest with
      | nil => cases hmem
      | cons r rs =>
        have h : (joinSep sep ((m :: r :: rs).map noteBlock)).data =
            (noteBlock m ++ sep).data ++ (joinSep sep ((r :: rs).map noteBlock)).data := by
          simp [joinSep, String.data_append]
        rw [h]
        exact containsSub_append_of _ (ih hmem)

/-! ### Membership lemmas for the mention scan -/

theorem mem_insertByTitleLen {n x : Note} :
    ∀ l : List Note, x ∈ insertByTitleLen n l ↔ x = n ∨ x ∈ l
  | [] => by simp [insertByTitleLen]
  | m :: rest => by
    by_cases h : m.title.length ≤ n.title.length
    · simp [insertByTitleLen, h, List.mem_cons]
    · simp only [insertByTitleLen, if_neg h, List.mem_cons, mem_insertByTitleLen rest]
      tauto

theorem mem_sortByTitleLenDesc {x : Note} :
    ∀ l : List Note, x ∈ sortByTitleLenDesc l ↔ x ∈ l
  | [] => Iff.rfl
  | n :: rest => by
    simp only [sortByTitleLenDesc, mem_insertByTitleLen, mem_sortByTitleLenDesc rest,
      List.mem_cons]

/-- With globally unique identifiers (the spec §3 invariant), the first note
found by id is the note itself. -/
theorem find_by_id_self {notes : List Note} {n : Note}
    (hids : (notes.map (fun x => x.id)).Nodup) (hn : n ∈ notes) :
    notes.find? (fun x => x.id == n.id) = some n := by
  induction notes with
  | nil => cases hn
  | cons m rest ih =>
    rcases List.mem_cons.mp hn with heq | hmem
    · subst heq
      simp [List.find?]
    · have hne : m.id ≠ n.id := by
        intro he
        have : n.id ∈ rest.map (fun x => x.id) := List.mem_map.mpr ⟨n, hmem, rfl⟩
        rw [List.map_cons, List.nodup_cons] at hids
        exact hids.1 (he ▸ this)
      have hb : (m.id == n.id) = false := by
        cases h : m.id == n.id
        · rfl
        · exact absurd (beq_iff_eq.mp h) hne
      rw [List.map_cons, List.nodup_cons] at hids
      simp only [List.find?, hb]
      exact ih hids.2 hmem

/-- Every explicitly mentioned note's full body appears in the assembled
context, and the mention branch never calls semantic search. -/
theorem resolveContext_of_mention {notes : List Note} {activeNoteId : Option String}
    {message : String} {ragSearch : String → Nat → List SimResult}
    {dbGet : String → Option Note} {n : Note}
    (hmem : n ∈ mentionMatches notes activeNoteId message) :
    strIncludes (resolveContext notes activeNoteId message ragSearch dbGet).context
      n.body = true ∧
    (resolveContext notes activeNoteId message ragSearch dbGet).ragCalled = false := by
  have hne : (mentionMatches notes activeNoteId message).isEmpty = false := by
    cases hm : mentionMatches notes activeNoteId message with
    | nil => rw [hm] at hmem; cases hmem
    | cons a l => rfl
  have hj := joinSep_contains_body "\n\n---\n\n" hmem
  constructor
  · simp only [resolveContext, hne, Bool.not_false, if_true]
    show containsSub (_ ++ "User explicitly mentioned these notes:\n\n" ++
      joinSep "\n\n---\n\n"
        ((mentionMatches notes activeNoteId message).map noteBlock)).data
      n.body.data = true
    rw [String.data_append]
    exact containsSub_append_of _ hj
  · simp only [resolveContext, hne, Bool.not_false, if_true]

/-- When the active note is the mentioned-or-viewed note itself, its full
body appears in the context and semantic search is not called. -/
theorem resolveContext_of_active {notes : List Note} {message : String}
    {ragSearch : String → Nat → List SimResult} {dbGet : String → Option Note}
    {n : Note} (hfind : notes.find? (fun x => x.id == n.id) = some n) :
    strIncludes (resolveContext notes (some n.id) message ragSearch dbGet).context
      n.body = true ∧
    (resolveContext notes (some n.id) message ragSearch dbGet).ragCalled = false := by
  have hbase : containsSub ("CURRENTLY VIEWING NOTE:\n" ++ noteBlock n ++
      "\n\n---\n\n").data n.body.data = true := by
    rw [String.data_append, String.data_append]
    exact containsSub_append_right _ (containsSub_append_of _ (noteBlock_contains_body n))
  by_cases hm : (mentionMatches notes (some n.id) message).isEmpty = true
  · have hctx : (resolveContext notes (some n.id) message ragSearch dbGet).context =
        "CURRENTLY VIEWING NOTE:\n" ++ noteBlock n ++ "\n\n---\n\n" := by
      simp [resolveContext, hfind, hm]
    have hrag : (resolveContext notes (some n.id) message ragSearch dbGet).ragCalled =
        false := by
      simp [resolveContext, hfind, hm]
    rw [hctx, hrag]
    exact ⟨hbase, rfl⟩
  · have hm' : (mentionMatches notes (some n.id) message).isEmpty = false := by
      cases h : (mentionMatches notes (some n.id) message).isEmpty
      · rfl
      · exact absurd h hm
    have hctx : (resolveContext notes (some n.id) message ragSearch dbGet).context =
        ("CURRENTLY VIEWING NOTE:\n" ++ noteBlock n ++ "\n\n---\n\n") ++
          "User explicitly mentioned these notes:\n\n" ++
          joinSep "\n\n---\n\n"
            ((mentionMatches notes (some n.id) message).map noteBlock) := by
      simp [resolveContext, hfind, hm']
    have hrag : (resolveContext notes (some n.id) message ragSearch dbGet).ragCalled =
        false := by
      simp [resolveContext, hfind, hm']
    rw [hctx, hrag]
    refine ⟨?_, rfl⟩
    show containsSub (_ ++ "User explicitly mentioned these notes:\n\n" ++
      joinSep "\n\n---\n\n"
        ((mentionMatches notes (some n.id) message).map noteBlock)).data
      n.body.data = true
    rw [String.data_append, String.data_append]
    exact containsSub_append_right _ (containsSub_append_right _ hbase)

/-- C3: the context assembler calls semantic search only when neither the
active note nor the explicit title mentions produced any notes; and for
every query mentioning an existing note title (`@title` occurs in the
message), the assembled context contains that note's full body and no
semantic search call is performed.  `hids` is the spec §3 invariant that
note identifiers are globally unique. -/
theorem resolveContext_semantic_fallback (notes : List Note)
    (activeNoteId : Option String) (message : String)
    (ragSearch : String → Nat → List SimResult) (dbGet : String → Option Note)
    (hids : (notes.map (fun x => x.id)).Nodup) :
    ((resolveContext notes activeNoteId message ragSearch dbGet).ragCalled = true →
      activeNoteId = none ∧ mentionMatches notes activeNoteId message = []) ∧
    (∀ n ∈ notes, strIncludes message ("@" ++ n.title) = true →
      strIncludes (resolveContext notes activeNoteId message ragSearch dbGet).context
        n.body = true ∧
      (resolveContext notes activeNoteId message ragSearch dbGet).ragCalled = false) := by
  constructor
  · intro hrag
    cases hml : mentionMatches notes activeNoteId message with
    | cons a l =>
      have hm' : (mentionMatches notes activeNoteId message).isEmpty = false := by
        rw [hml]; rfl
      have : (resolveContext notes activeNoteId message ragSearch dbGet).ragCalled =
          false := by
        simp [resolveContext, hm']
      rw [this] at hrag
      cases hrag
    | nil =>
      have hm : (mentionMatches notes activeNoteId message).isEmpty = true := by
        rw [hml]; rfl
      cases haid : activeNoteId with
      | none => exact ⟨rfl, rfl⟩
      | some aid =>
        rw [haid] at hrag
        have : (resolveContext notes (some aid) message ragSearch dbGet).ragCalled =
            false := by
          rw [haid] at hm
          simp [resolveContext, hm]
        rw [this] at hrag
        cases hrag
  · intro n hn hinc
    cases haid : activeNoteId with
    | none =>
      have hcond : (strIncludes message ("@" ++ n.title) &&
          ((none : Option String) != some n.id)) = true := by
        rw [hinc]; rfl
      have hmem : n ∈ mentionMatches notes none message :=
        List.mem_filter.mpr ⟨(mem_sortByTitleLenDesc notes).mpr hn, hcond⟩
      exact resolveContext_of_mention hmem
    | some aid =>
      by_cases hactive : aid = n.id
      · subst hactive
        exact resolveContext_of_active (find_by_id_self hids hn)
      · have hbeq : ((some aid : Option String) == some n.id) = false := by
          cases h : (some aid : Option String) == some n.id
          · rfl
          · exact absurd (by injection (beq_iff_eq.mp h)) hactive
        have hbne : ((some aid : Option String) != some n.id) = true := by
          simp [bne, hbeq]
        have hcond : (strIncludes message ("@" ++ n.title) &&
            ((some aid : Option String) != some n.id)) = true := by
          rw [hinc, hbne]; rfl
        have hmem : n ∈ mentionMatches notes (some aid) message :=
          List.mem_filter.mpr ⟨(mem_sortByTitleLenDesc notes).mpr hn, hcond⟩
        exact resolveContext_of_mention hmem

/-- The one-note corpus of the spec's §8 example for the assembler. -/
def betaNotes : List Note := [⟨"b1", "Beta", "Beta body text", [], [], [], 0⟩]

/-- Witness for C3 at the spec's own example: query "@Beta what does it
say" with "Beta" an existing title, no active note — the context contains
Beta's full body and semantic search is not called, even though the search
oracle would return a result. -/
theorem resolveContext_semantic_fallback_witness :
    strIncludes (resolveContext betaNotes none "@Beta what does it say"
      (fun _ _ => [⟨"zz", 1⟩]) (fun _ => none)).context "Beta body text" = true ∧
    (resolveContext betaNotes none "@Beta what does it say"
      (fun _ _ => [⟨"zz", 1⟩]) (fun _ => none)).ragCalled = false := by
  have h := (resolveContext_semantic_fallback betaNotes none "@Beta what does it say"
    (fun _ _ => [⟨"zz", 1⟩]) (fun _ => none) (by decide)).2
    ⟨"b1", "Beta", "Beta body text", [], [], [], 0⟩ (by decide) (by decide)
  exact h

/-!
## Relationship Resolver: `autoLinkNote` (part_003 277-298)

`VectorStore.search` is a parameter `searchFn`; `NoteDAO.save` is modelled
by the returned note value, and the returned Boolean records whether a save
happened.  A thrown search error would make the routine a no-op through its
`catch`; the claims below concern the successful path, so `searchFn` is
total.
-/

/-- `[...new Set(list)]` from JS: deduplication keeping first occurrences.
`seen` accumulates the values already emitted. -/
def dedupKeepFirst (seen : List String) : List String → List String
  | [] => []
  | x :: rest =>
    if seen.contains x then dedupKeepFirst seen rest
    else x :: dedupKeepFirst (x :: seen) rest

/-- `autoLinkNote(note)` from part_003 277-298: skip near-empty bodies,
search on title plus the first 200 body characters (k = 5), keep results
other than the note itself with score strictly above 0.3, merge into the
existing AI links, dedupe, cap at 5, and save iff any survivor existed. -/
def autoLinkNote (searchFn : String → Nat → List SimResult) (note : Note) :
    Note × Bool :=
  if note.body == "" || trimmedLen note.body < 20 then (note, false)
  else
    let results := searchFn (note.title ++ " " ++ strTake note.body 200) 5
    let similarNoteIds := (results.filter
      (fun r => r.noteId != note.id && (3 : ℚ)/10 < r.score)).map (fun r => r.noteId)
    if similarNoteIds.isEmpty then (note, false)
    else
      ({ note with
          aiLinks := (dedupKeepFirst [] (note.aiLinks ++ similarNoteIds)).take 5 },
        true)

theorem dedupKeepFirst_spec : ∀ (seen l : List String),
    (dedupKeepFirst seen l).Nodup ∧
    ∀ x ∈ dedupKeepFirst seen l, x ∉ seen ∧ x ∈ l
  | _, [] => ⟨List.nodup_nil, by intro x hx; cases hx⟩
  | seen, x :: rest => by
    by_cases hx : seen.contains x = true
    · rcases dedupKeepFirst_spec seen rest with ⟨h1, h2⟩
      rw [dedupKeepFirst, if_pos hx]
      exact ⟨h1, fun y hy => ⟨(h2 y hy).1, List.mem_cons.mpr (Or.inr (h2 y hy).2)⟩⟩
    · rcases dedupKeepFirst_spec (x :: seen) rest with ⟨h1, h2⟩
      rw [dedupKeepFirst, if_neg hx]
      constructor
      · rw [List.nodup_cons]
        refine ⟨fun hmem => ?_, h1⟩
        exact (h2 x hmem).1 (List.mem_cons.mpr (Or.inl rfl))
      · intro y hy
        rcases List.mem_cons.mp hy with heq | hmem
        · subst heq
          refine ⟨fun hc => ?_, List.mem_cons.mpr (Or.inl rfl)⟩
          have hcon : seen.contains y = true := by
            rw [List.contains_eq_any_beq]
            exact List.any_eq_true.mpr ⟨y, hc, by simp⟩
          exact hx hcon
        · have := h2 y hmem
          refine ⟨fun hc => this.1 (List.mem_cons.mpr (Or.inr hc)),
            List.mem_cons.mpr (Or.inr this.2)⟩

/-- A note whose body is 25 space characters: 25 raw characters, but
trimmed length 0. -/
def spaceNote : Note := ⟨"n1", "T", "                         ", [], [], [], 0⟩

/-- C9 counterexample: `spaceNote` has at least 20 characters of body, so
the claim says `autoLink` runs the similarity search and merges the
surviving identifier "n2" (score 0.9 > 0.3, different id) into the AI-link
list — but the code tests the *trimmed* length (part_003 line 278) and
no-ops: nothing is saved and the AI-link list stays `[]`, not `["n2"]`. -/
theorem autoLinkNote_trim_counterexample :
    autoLinkNote (fun _ _ => [⟨"n2", (9 : ℚ)/10⟩]) spaceNote = (spaceNote, false) ∧
    20 ≤ spaceNote.body.length ∧
    (autoLinkNote (fun _ _ => [⟨"n2", (9 : ℚ)/10⟩]) spaceNote).1.aiLinks ≠ ["n2"] := by
  refine ⟨by decide, by decide, by decide⟩

/-- C9 (amended): `autoLink(note)` is a no-op — the note unchanged, nothing
saved — when the *trimmed* body has fewer than 20 characters (hence in
particular when the raw body does); otherwise it searches on the note's
title plus the first 200 characters of its body with k = 5, discards the
note itself and every result whose score is not strictly above the 0.3
threshold, and, if any survivor remains, saves the note with its AI-link
list replaced by the existing links followed by the survivors, deduplicated
keeping first occurrences and truncated to at most 5 entries (so the result
has no duplicates, at most 5 entries, and only identifiers that were already
linked or survived the search); if no survivor remains the list is unchanged
and nothing is saved. -/
theorem autoLinkNote_characterization (searchFn : String → Nat → List SimResult)
    (note : Note) :
    (trimmedLen note.body < 20 → autoLinkNote searchFn note = (note, false)) ∧
    (20 ≤ trimmedLen note.body →
      ((((searchFn (note.title ++ " " ++ strTake note.body 200) 5).filter
          (fun r => r.noteId != note.id && (3 : ℚ)/10 < r.score)).map
            (fun r => r.noteId)) = [] →
        autoLinkNote searchFn note = (note, false)) ∧
      ∀ ids, ids = (((searchFn (note.title ++ " " ++ strTake note.body 200) 5).filter
          (fun r => r.noteId != note.id && (3 : ℚ)/10 < r.score)).map
            (fun r => r.noteId)) → ids ≠ [] →
        (autoLinkNote searchFn note).2 = true ∧
        (autoLinkNote searchFn note).1.aiLinks =
          (dedupKeepFirst [] (note.aiLinks ++ ids)).take 5 ∧
        (autoLinkNote searchFn note).1.id = note.id ∧
        (autoLinkNote searchFn note).1.body = note.body ∧
        (autoLinkNote searchFn note).1.aiLinks.length ≤ 5 ∧
        (autoLinkNote searchFn note).1.aiLinks.Nodup ∧
        ∀ x ∈ (autoLinkNote searchFn note).1.aiLinks,
          x ∈ note.aiLinks ∨ x ∈ ids) := by
  constructor
  · intro hlt
    unfold autoLinkNote
    rw [if_pos]
    simp [hlt]
  · intro hge
    have hguard : (note.body == "" || decide (trimmedLen note.body < 20)) = false := by
      have hb : (note.body == "") = false := by
        cases h : note.body == ""
        · rfl
        · exfalso
          have hb' : note.body = "" := beq_iff_eq.mp h
          rw [hb'] at hge
          exact absurd hge (by decide)
      simp [hb]
      omega
    have hnguard : ¬ ((note.body == "" || decide (trimmedLen note.body < 20)) = true) := by
      simp [hguard]
    constructor
    · intro hempty
      unfold autoLinkNote
      rw [if_neg hnguard]
      simp only [hempty]
      rfl
    · intro ids hids hne
      have hids' :
          (((searchFn (note.title ++ " " ++ strTake note.body 200) 5).filter
            (fun r => r.noteId != note.id && (3 : ℚ)/10 < r.score)).map
              (fun r => r.noteId)).isEmpty = false := by
        rw [← hids]
        cases h : ids with
        | nil => exact absurd h hne
        | cons a l => rfl
      have hres : autoLinkNote searchFn note =
          ({ note with
              aiLinks := (dedupKeepFirst []
                (note.aiLinks ++ (((searchFn (note.title ++ " " ++
                  strTake note.body 200) 5).filter
                    (fun r => r.noteId != note.id && (3 : ℚ)/10 < r.score)).map
                      (fun r => r.noteId)))).take 5 },
            true) := by
        unfold autoLinkNote
        rw [if_neg hnguard]
        simp only [hids']
        rfl
      rw [hres, ← hids]
      have hd := dedupKeepFirst_spec [] (note.aiLinks ++ ids)
      refine ⟨rfl, rfl, rfl, rfl, ?_, ?_, ?_⟩
      · show ((dedupKeepFirst [] (note.aiLinks ++ ids)).take 5).length ≤ 5
        rw [List.length_take]
        exact min_le_left 5 _
      · exact List.Nodup.sublist (List.take_sublist 5 _) hd.1
      · intro x hx
        have hxm : x ∈ dedupKeepFirst [] (note.aiLinks ++ ids) :=
          (List.take_sublist 5 _).subset hx
        exact List.mem_append.mp (hd.2 x hxm).2

/-- Witness for C9 at the spec's own §8 example: a note with body length 10
is a no-op — the AI-link list is unchanged and nothing is saved — even when
the search oracle would offer a high-scoring neighbour. -/
theorem autoLinkNote_characterization_witness :
    autoLinkNote (fun _ _ => [⟨"n2", (9 : ℚ)/10⟩])
      ⟨"n1", "T", "0123456789", [], [], ["old"], 0⟩ =
      (⟨"n1", "T", "0123456789", [], [], ["old"], 0⟩, false) :=
  (autoLinkNote_characterization (fun _ _ => [⟨"n2", (9 : ℚ)/10⟩])
    ⟨"n1", "T", "0123456789", [], [], ["old"], 0⟩).1 (by decide)
